import Mathlib

/-!
Verification of the DD_DM_targets detector-response pipeline and sampler glue.

The development shallowly embeds the two detector-spectrum implementations of
the repository (the modern one in dddm/recoil_rates/detector_spectrum.py and
the legacy one in DirectDmTargets/detector.py) together with the likelihood
and prior plumbing of DirectDmTargets/nestle.py.  Python floats are modelled
as real numbers; fallible code returns Except values; numpy arrays become
lists.  Functions whose defining module is absent from the source tree
(halo.py, statistics.py) are modelled from the specification and marked as
such in their doc comments.
-/

namespace DDDM

/-- Threshold application of dddm DetectorSpectrum.above_threshold
(detector_spectrum.py lines 60-93).  The Python loop walks the rate bins in
order, breaks as soon as a left edge reaches the threshold, zeroes bins fully
below threshold, scales a straddling bin by the fraction of its width above
threshold, and raises ValueError in the residual branch.  Indexing the edge
array past its length raises an IndexError, modelled as an error value. -/
def above_threshold {α : Type} [LinearOrderedField α] :
    List α → List (α × α) → α → Except String (List α)
  | [], _, _ => .ok []
  | _ :: _, [], _ => .error "IndexError"
  | r :: rs, e :: es, e_thr =>
    if e_thr ≤ e.1 then .ok (r :: rs)
    else if e.2 ≤ e_thr then (above_threshold rs es e_thr).map (fun t => 0 :: t)
    else if e.1 ≤ e_thr ∧ e_thr ≤ e.2 then
      (above_threshold rs es e_thr).map
        (fun t => r * ((e.2 - e_thr) / (e.2 - e.1)) :: t)
    else .error "How did this happen?"

/-- Per-bin threshold behaviour as worded by the specification: a bin whose
right edge is at most the threshold is zeroed, a bin whose left edge is at
least the threshold is kept in full, and a straddling bin keeps the fraction
of its width lying above threshold. -/
def above_threshold_spec {α : Type} [LinearOrderedField α]
    (e_thr : α) (r : α) (e : α × α) : α :=
  if e.2 ≤ e_thr then 0
  else if e_thr ≤ e.1 then r
  else r * ((e.2 - e_thr) / (e.2 - e.1))

end DDDM

/-- Helper: if the threshold is at most every left edge and every bin is
non-degenerate, the per-bin threshold behaviour keeps every bin. -/
theorem above_threshold_spec_keep {α : Type} [LinearOrderedField α]
    (e_thr : α) (rs : List α) (es : List (α × α))
    (hlt : ∀ e ∈ es, e_thr ≤ e.1) (hw : ∀ e ∈ es, e.1 < e.2) :
    List.zipWith (DDDM.above_threshold_spec e_thr) rs es = rs.take es.length := by
  induction rs generalizing es with
  | nil => simp
  | cons r rs ih =>
    cases es with
    | nil => simp
    | cons e es =>
      have h1 : e_thr ≤ e.1 := hlt e (by simp)
      have h2 : e.1 < e.2 := hw e (by simp)
      have hne : ¬ e.2 ≤ e_thr := by
        intro h
        exact absurd (lt_of_lt_of_le h2 h) (not_lt.mpr h1)
      simp only [List.zipWith, DDDM.above_threshold_spec, if_neg hne, if_pos h1,
        List.length_cons, List.take_succ_cons, List.cons.injEq, true_and]
      exact ih es (fun x hx => hlt x (by simp [hx])) (fun x hx => hw x (by simp [hx]))

/-- C2: on a bin-edge array whose rows are ordered by increasing left edge
and are non-degenerate, dddm above_threshold returns normally and realises
exactly the per-bin behaviour stated by the specification: bins fully below
threshold are zeroed, the straddling bin keeps the fraction of its width
above threshold, and every bin from the first one whose left edge reaches
the threshold onwards is kept untouched. -/
theorem above_threshold_fractional_cut (rates : List ℝ) (edges : List (ℝ × ℝ))
    (e_thr : ℝ) (hlen : rates.length ≤ edges.length)
    (hsort : List.Sorted (· ≤ ·) (edges.map Prod.fst))
    (hw : ∀ e ∈ edges, e.1 < e.2) :
    DDDM.above_threshold rates edges e_thr =
      .ok (List.zipWith (DDDM.above_threshold_spec e_thr) rates edges) := by
  induction rates generalizing edges with
  | nil => simp [DDDM.above_threshold]
  | cons r rs ih =>
    cases edges with
    | nil => simp at hlen
    | cons e es =>
      have hlen' : rs.length ≤ es.length := by simpa using hlen
      have hsort' : List.Sorted (· ≤ ·) (es.map Prod.fst) := by
        simpa [List.sorted_cons] using hsort.tail
      have hwe : e.1 < e.2 := hw e (by simp)
      have hw' : ∀ x ∈ es, x.1 < x.2 := fun x hx => hw x (by simp [hx])
      by_cases hbreak : e_thr ≤ e.1
      · have hne : ¬ e.2 ≤ e_thr := by
          intro h
          exact absurd (lt_of_lt_of_le hwe h) (not_lt.mpr hbreak)
        have hsort2 : List.Sorted (· ≤ ·) (e.1 :: es.map Prod.fst) := by
          simpa only [List.map_cons] using hsort
        have hrest : ∀ x ∈ es, e_thr ≤ x.1 := by
          intro x hx
          have : e.1 ≤ x.1 :=
            (List.sorted_cons.mp hsort2).1 x.1 (List.mem_map_of_mem Prod.fst hx)
          linarith
        have htail : List.zipWith (DDDM.above_threshold_spec e_thr) rs es =
            rs.take es.length := above_threshold_spec_keep e_thr rs es hrest hw'
        simp only [DDDM.above_threshold, if_pos hbreak, List.zipWith,
          DDDM.above_threshold_spec, if_neg hne, htail,
          List.take_of_length_le hlen']
      · by_cases hzero : e.2 ≤ e_thr
        · simp only [DDDM.above_threshold, if_neg hbreak, if_pos hzero,
            ih es hlen' hsort' hw', Except.map, List.zipWith,
            DDDM.above_threshold_spec]
        · have hcond : e.1 ≤ e_thr ∧ e_thr ≤ e.2 :=
            ⟨le_of_lt (not_le.mp hbreak), le_of_lt (not_le.mp hzero)⟩
          simp only [DDDM.above_threshold, if_neg hbreak, if_neg hzero,
            if_pos hcond, ih es hlen' hsort' hw', Except.map, List.zipWith,
            DDDM.above_threshold_spec, if_neg (not_le.mpr (not_le.mp hbreak))]

/-- Witness for above_threshold_fractional_cut at a concrete binning: three
unit bins with the threshold in the middle of the second bin. -/
theorem above_threshold_fractional_cut_witness :
    (([(1:ℝ), 2, 3] : List ℝ).length ≤ ([((0:ℝ),(1:ℝ)), (1,2), (2,3)] : List (ℝ × ℝ)).length) ∧
    List.Sorted (· ≤ ·) (([((0:ℝ),(1:ℝ)), (1,2), (2,3)] : List (ℝ × ℝ)).map Prod.fst) ∧
    (∀ e ∈ ([((0:ℝ),(1:ℝ)), (1,2), (2,3)] : List (ℝ × ℝ)), e.1 < e.2) ∧
    DDDM.above_threshold [(1:ℝ), 2, 3] [((0:ℝ),(1:ℝ)), (1,2), (2,3)] (3/2) =
      .ok (List.zipWith (DDDM.above_threshold_spec (3/2)) [(1:ℝ), 2, 3]
        [((0:ℝ),(1:ℝ)), (1,2), (2,3)]) := by
  refine ⟨by norm_num, by norm_num, by norm_num, ?_⟩
  exact above_threshold_fractional_cut _ _ _ (by norm_num) (by norm_num) (by norm_num)

/-- C3 counterexample: dddm above_threshold is not idempotent.  A single bin
with edges (0, 2) and threshold 1 strictly straddles the threshold, so the
fractional scaling is applied again on the second pass: one application
yields 1/2, two applications yield 1/4. -/
theorem above_threshold_twice_differs :
    (DDDM.above_threshold [(1:ℝ)] [((0:ℝ),(2:ℝ))] 1).bind
        (fun r => DDDM.above_threshold r [((0:ℝ),(2:ℝ))] 1) ≠
      DDDM.above_threshold [(1:ℝ)] [((0:ℝ),(2:ℝ))] 1 := by
  have h1 : DDDM.above_threshold [(1:ℝ)] [((0:ℝ),(2:ℝ))] 1 = .ok [1/2] := by
    norm_num [DDDM.above_threshold, Except.map]
  have h2 : DDDM.above_threshold [(1/2:ℝ)] [((0:ℝ),(2:ℝ))] 1 = .ok [1/4] := by
    norm_num [DDDM.above_threshold, Except.map]
  rw [h1]
  simp only [Except.bind, h2]
  intro hc
  have := Except.ok.inj hc
  simp at this

/-- Helper: Except.map keeps an error payload unchanged. -/
theorem except_map_ne_error {α β : Type} (f : α → β) (e : Except String α)
    (s : String) (h : e ≠ .error s) : e.map f ≠ .error s := by
  cases e with
  | error t =>
    intro hc
    simp only [Except.map] at hc
    exact h (by rw [Except.error.inj hc])
  | ok v => simp [Except.map]

/-- C3 amended: dddm above_threshold is idempotent provided no bin strictly
straddles the threshold, i.e. every bin lies entirely below (right edge at
most the threshold) or entirely above (left edge at least the threshold). -/
theorem above_threshold_idempotent_no_straddle (rates : List ℝ)
    (edges : List (ℝ × ℝ)) (e_thr : ℝ)
    (h : ∀ e ∈ edges, e.2 ≤ e_thr ∨ e_thr ≤ e.1) :
    (DDDM.above_threshold rates edges e_thr).bind
        (fun r => DDDM.above_threshold r edges e_thr) =
      DDDM.above_threshold rates edges e_thr := by
  induction rates generalizing edges with
  | nil => simp [DDDM.above_threshold, Except.bind]
  | cons r rs ih =>
    cases edges with
    | nil => simp [DDDM.above_threshold, Except.bind]
    | cons e es =>
      have h' : ∀ x ∈ es, x.2 ≤ e_thr ∨ e_thr ≤ x.1 := fun x hx => h x (by simp [hx])
      by_cases hbreak : e_thr ≤ e.1
      · simp [DDDM.above_threshold, if_pos hbreak, Except.bind]
      · have hzero : e.2 ≤ e_thr := (h e (by simp)).resolve_right hbreak
        cases hrec : DDDM.above_threshold rs es e_thr with
        | error s =>
          simp [DDDM.above_threshold, if_neg hbreak, if_pos hzero, hrec,
            Except.map, Except.bind]
        | ok v =>
          have hv : DDDM.above_threshold v es e_thr = .ok v := by
            have := ih es h'
            rw [hrec] at this
            simpa [Except.bind] using this
          simp [DDDM.above_threshold, if_neg hbreak, if_pos hzero, hrec,
            Except.map, Except.bind, hv]

/-- Witness for above_threshold_idempotent_no_straddle: two bins, one fully
below and one fully above a threshold sitting exactly on their shared edge. -/
theorem above_threshold_idempotent_no_straddle_witness :
    (∀ e ∈ ([((0:ℝ),(1:ℝ)), (1,2)] : List (ℝ × ℝ)), e.2 ≤ 1 ∨ (1:ℝ) ≤ e.1) ∧
    (DDDM.above_threshold [(5:ℝ), 7] [((0:ℝ),(1:ℝ)), (1,2)] 1).bind
        (fun r => DDDM.above_threshold r [((0:ℝ),(1:ℝ)), (1,2)] 1) =
      DDDM.above_threshold [(5:ℝ), 7] [((0:ℝ),(1:ℝ)), (1,2)] 1 :=
  ⟨by norm_num,
   above_threshold_idempotent_no_straddle _ _ _ (by norm_num)⟩

/-- C9: under the precondition that every bin edge pair is ordered (left edge
at most right edge), the contract-violation ValueError branch of dddm
above_threshold is unreachable, and whenever the edge array is at least as
long as the rates array the call returns normally. -/
theorem above_threshold_error_unreachable (rates : List ℝ)
    (edges : List (ℝ × ℝ)) (e_thr : ℝ) (h : ∀ e ∈ edges, e.1 ≤ e.2) :
    DDDM.above_threshold rates edges e_thr ≠ .error "How did this happen?" ∧
    (rates.length ≤ edges.length →
      ∃ out, DDDM.above_threshold rates edges e_thr = .ok out) := by
  induction rates generalizing edges with
  | nil =>
    exact ⟨by simp [DDDM.above_threshold], fun _ => ⟨[], by simp [DDDM.above_threshold]⟩⟩
  | cons r rs ih =>
    cases edges with
    | nil =>
      refine ⟨by simp [DDDM.above_threshold], fun hlen => absurd hlen (by simp)⟩
    | cons e es =>
      have h' : ∀ x ∈ es, x.1 ≤ x.2 := fun x hx => h x (by simp [hx])
      obtain ⟨ih1, ih2⟩ := ih es h'
      by_cases hbreak : e_thr ≤ e.1
      · exact ⟨by simp [DDDM.above_threshold, if_pos hbreak],
          fun _ => ⟨r :: rs, by simp [DDDM.above_threshold, if_pos hbreak]⟩⟩
      · by_cases hzero : e.2 ≤ e_thr
        · constructor
          · simpa [DDDM.above_threshold, if_neg hbreak, if_pos hzero] using
              except_map_ne_error _ _ _ ih1
          · intro hlen
            obtain ⟨out, hout⟩ := ih2 (by simpa using hlen)
            exact ⟨0 :: out,
              by simp [DDDM.above_threshold, if_neg hbreak, if_pos hzero, hout, Except.map]⟩
        · have hcond : e.1 ≤ e_thr ∧ e_thr ≤ e.2 :=
            ⟨le_of_lt (not_le.mp hbreak), le_of_lt (not_le.mp hzero)⟩
          constructor
          · simpa [DDDM.above_threshold, if_neg hbreak, if_neg hzero, if_pos hcond] using
              except_map_ne_error _ _ _ ih1
          · intro hlen
            obtain ⟨out, hout⟩ := ih2 (by simpa using hlen)
            exact ⟨r * ((e.2 - e_thr) / (e.2 - e.1)) :: out,
              by simp [DDDM.above_threshold, if_neg hbreak, if_neg hzero, if_pos hcond,
                hout, Except.map]⟩

/-- Witness for above_threshold_error_unreachable at a concrete input with a
degenerate bin (left edge equal to right edge) below the threshold. -/
theorem above_threshold_error_unreachable_witness :
    (∀ e ∈ ([((0:ℝ),(0:ℝ)), (0,2)] : List (ℝ × ℝ)), e.1 ≤ e.2) ∧
    (DDDM.above_threshold [(4:ℝ), 6] [((0:ℝ),(0:ℝ)), (0,2)] 1 ≠
      .error "How did this happen?" ∧
    (([(4:ℝ), 6] : List ℝ).length ≤ ([((0:ℝ),(0:ℝ)), (0,2)] : List (ℝ × ℝ)).length →
      ∃ out, DDDM.above_threshold [(4:ℝ), 6] [((0:ℝ),(0:ℝ)), (0,2)] 1 = .ok out)) :=
  ⟨by norm_num, above_threshold_error_unreachable _ _ _ (by norm_num)⟩

namespace DDDM

/-- Summand of the discrete Gaussian convolution of dddm _smear_signal
(detector_spectrum.py lines 122-140): bin_width[j] * rate[j] * normal pdf of
energy[i] centred at energy[j] with width sigma[j]. -/
noncomputable def smear_term (rate energy sigma bin_width : List ℝ) (i j : ℕ) : ℝ :=
  bin_width.getD j 0 * rate.getD j 0 *
    (1 / (Real.sqrt (2 * Real.pi) * sigma.getD j 0)) *
    Real.exp (-((energy.getD i 0 - energy.getD j 0) ^ 2 / (2 * sigma.getD j 0 ^ 2)))

/-- Inner double loop of dddm _smear_signal: for every output index i the
summed Gaussian-weighted contribution of every input bin j.  The source
contract (docstring) requires the rate, energy and resolution arrays to have
equal length. -/
noncomputable def smear_signal_inner (rate energy sigma bin_width : List ℝ) : List ℝ :=
  (List.range energy.length).map fun i =>
    ∑ j ∈ Finset.range rate.length, smear_term rate energy sigma bin_width i j

/-- Guarded wrapper dddm smear_signal (detector_spectrum.py lines 96-119).
If any per-bin resolution is smaller than the corresponding bin width, the
function warns (first component true) and returns the input rate unchanged;
otherwise it returns the convolution computed by the inner double loop. -/
noncomputable def smear_signal (rate energy sigma bin_width : List ℝ) : Bool × List ℝ :=
  if ∃ p ∈ sigma.zip bin_width, p.1 < p.2 then (true, rate)
  else (false, smear_signal_inner rate energy sigma bin_width)

end DDDM

namespace Legacy

/-- Summand of the legacy DirectDmTargets smear_signal (detector.py lines
323-352); the bin width is a scalar there. -/
noncomputable def smear_term (rate energy sigma : List ℝ) (bin_width : ℝ) (i j : ℕ) : ℝ :=
  bin_width * rate.getD j 0 *
    (1 / (Real.sqrt (2 * Real.pi) * sigma.getD j 0)) *
    Real.exp (-((energy.getD i 0 - energy.getD j 0) ^ 2 / (2 * sigma.getD j 0 ^ 2)))

/-- Legacy DirectDmTargets smear_signal: the bare O(n^2) discrete Gaussian
convolution.  Unlike the dddm version it has no under-resolution guard and
emits no warning. -/
noncomputable def smear_signal (rate energy sigma : List ℝ) (bin_width : ℝ) : List ℝ :=
  (List.range energy.length).map fun i =>
    ∑ j ∈ Finset.range rate.length, smear_term rate energy sigma bin_width i j

end Legacy

/-- C4 amended: the dddm smear_signal implements the under-resolution guard.
If any resolution entry is below the corresponding bin width it warns and
returns the rate unchanged; otherwise it warns not and returns the O(n^2)
discrete Gaussian convolution. -/
theorem smear_signal_guard (rate energy sigma bin_width : List ℝ) :
    ((∃ p ∈ sigma.zip bin_width, p.1 < p.2) →
      DDDM.smear_signal rate energy sigma bin_width = (true, rate)) ∧
    ((∀ p ∈ sigma.zip bin_width, ¬ p.1 < p.2) →
      DDDM.smear_signal rate energy sigma bin_width =
        (false, DDDM.smear_signal_inner rate energy sigma bin_width)) := by
  constructor
  · intro h
    simp [DDDM.smear_signal, if_pos h]
  · intro h
    have h' : ¬ ∃ p ∈ sigma.zip bin_width, p.1 < p.2 := by
      rintro ⟨p, hp, hlt⟩
      exact h p hp hlt
    simp [DDDM.smear_signal, if_neg h']

/-- Witness for smear_signal_guard: with resolution 1 below bin width 2 the
rate array is returned unchanged together with the warning flag. -/
theorem smear_signal_guard_witness :
    (∃ p ∈ ([(1:ℝ)] : List ℝ).zip ([(2:ℝ)] : List ℝ), p.1 < p.2) ∧
    DDDM.smear_signal [(5:ℝ)] [(0:ℝ)] [(1:ℝ)] [(2:ℝ)] = (true, [(5:ℝ)]) :=
  ⟨⟨(1, 2), by norm_num, by norm_num⟩,
   (smear_signal_guard _ _ _ _).1 ⟨(1, 2), by norm_num, by norm_num⟩⟩

/-- C4 counterexample: the legacy DirectDmTargets smear_signal has no
under-resolution guard.  With resolution 2 strictly below the bin width 3 it
still computes the convolution instead of returning the input rate [1]
unchanged: the single output entry equals 3 / (2 * sqrt (2 * pi)), which is
smaller than 1. -/
theorem legacy_smear_signal_no_guard :
    Legacy.smear_signal [(1:ℝ)] [(0:ℝ)] [(2:ℝ)] 3 ≠ [(1:ℝ)] := by
  have hs : (3:ℝ)/2 < Real.sqrt (2 * Real.pi) :=
    (Real.lt_sqrt (by norm_num)).mpr (by nlinarith [Real.pi_gt_three])
  have hpos : (0:ℝ) < Real.sqrt (2 * Real.pi) * 2 := by positivity
  simp only [Legacy.smear_signal, Legacy.smear_term, List.length_singleton,
    List.range_succ, List.range_zero, List.nil_append, List.map_cons,
    List.map_nil, Finset.sum_range_one, List.getD_cons_zero, ne_eq,
    List.cons.injEq, and_true]
  have hexp : Real.exp (-(((0:ℝ) - 0) ^ 2 / (2 * 2 ^ 2))) = 1 := by
    norm_num
  rw [hexp]
  intro hc
  have hne : Real.sqrt (2 * Real.pi) * 2 ≠ 0 := ne_of_gt hpos
  field_simp [hne] at hc
  rw [Real.sqrt_mul (by norm_num : (0:ℝ) ≤ 2)] at hs
  linarith [hs, hc.symm.le]

/-- Helper: a getD lookup with default 0 into a list of lower-bounded entries
is non-negative when the bound is non-negative entries. -/
theorem list_getD_nonneg (l : List ℝ) (j : ℕ) (h : ∀ x ∈ l, 0 ≤ x) :
    0 ≤ l.getD j 0 := by
  rcases lt_or_ge j l.length with hj | hj
  · rw [List.getD_eq_getElem l 0 hj]
    exact h _ (List.getElem_mem hj)
  · rw [List.getD_eq_default l 0 hj]

/-- Helper: every summand of the dddm Gaussian convolution is non-negative
when rates, resolutions and bin widths are non-negative. -/
theorem smear_term_nonneg (rate energy sigma bin_width : List ℝ)
    (hr : ∀ x ∈ rate, 0 ≤ x) (hs : ∀ x ∈ sigma, 0 ≤ x)
    (hw : ∀ x ∈ bin_width, 0 ≤ x) (i j : ℕ) :
    0 ≤ DDDM.smear_term rate energy sigma bin_width i j := by
  unfold DDDM.smear_term
  have h1 : 0 ≤ bin_width.getD j 0 := list_getD_nonneg _ _ hw
  have h2 : 0 ≤ rate.getD j 0 := list_getD_nonneg _ _ hr
  have h3 : 0 ≤ sigma.getD j 0 := list_getD_nonneg _ _ hs
  have h4 : 0 ≤ 1 / (Real.sqrt (2 * Real.pi) * sigma.getD j 0) := by
    apply div_nonneg zero_le_one
    exact mul_nonneg (Real.sqrt_nonneg _) h3
  have h5 : 0 < Real.exp (-((energy.getD i 0 - energy.getD j 0) ^ 2 /
      (2 * sigma.getD j 0 ^ 2))) := Real.exp_pos _
  exact mul_nonneg (mul_nonneg (mul_nonneg h1 h2) h4) h5.le

/-- C10: dddm smear_signal preserves non-negativity.  For non-negative rates,
an energy array of the same length, strictly positive resolutions and
non-negative bin widths, every entry of the returned rate array is
non-negative, in the under-resolved fallback branch as well as in the
convolution branch. -/
theorem smear_signal_nonneg (rate energy sigma bin_width : List ℝ)
    (hr : ∀ x ∈ rate, 0 ≤ x) (hlen : energy.length = rate.length)
    (hs : ∀ x ∈ sigma, 0 < x) (hw : ∀ x ∈ bin_width, 0 ≤ x) :
    ∀ x ∈ (DDDM.smear_signal rate energy sigma bin_width).2, 0 ≤ x := by
  unfold DDDM.smear_signal
  by_cases hguard : ∃ p ∈ sigma.zip bin_width, p.1 < p.2
  · rw [if_pos hguard]
    exact hr
  · rw [if_neg hguard]
    intro x hx
    simp only [DDDM.smear_signal_inner, List.mem_map] at hx
    obtain ⟨i, -, hix⟩ := hx
    rw [← hix]
    exact Finset.sum_nonneg fun j _ =>
      smear_term_nonneg rate energy sigma bin_width hr
        (fun y hy => (hs y hy).le) hw i j

/-- Witness for smear_signal_nonneg: a single bin with rate 1, resolution 1
and bin width 1. -/
theorem smear_signal_nonneg_witness :
    (∀ x ∈ ([(1:ℝ)] : List ℝ), 0 ≤ x) ∧
    ([(0:ℝ)] : List ℝ).length = ([(1:ℝ)] : List ℝ).length ∧
    (∀ x ∈ ([(1:ℝ)] : List ℝ), 0 < x) ∧
    (∀ x ∈ ([(1:ℝ)] : List ℝ), 0 ≤ x) ∧
    (∀ x ∈ (DDDM.smear_signal [(1:ℝ)] [(0:ℝ)] [(1:ℝ)] [(1:ℝ)]).2, 0 ≤ x) :=
  ⟨by norm_num, by norm_num, by norm_num, by norm_num,
   smear_signal_nonneg _ _ _ _ (by norm_num) (by norm_num) (by norm_num) (by norm_num)⟩

namespace Nestle

/-- Modelled from the spec: the canonical ordered parameter list returned by
get_param_list of the absent statistics.py module, as named in the data-model
section (log_mass, log_cross_section, v_0, v_esc, density). -/
def known_parameters : List String :=
  ["log_mass", "log_cross_section", "v_0", "v_esc", "density"]

/-- Fit-parameter configuration of NestleStatModel.set_fit_parameters
(nestle.py lines 40-53): every requested name must be a known parameter
(otherwise NotImplementedError) and the requested list must equal the prefix
of the canonical ordering of the same length (otherwise NameError); on
success the list is stored as the model's fit parameters. -/
def set_fit_parameters (params : List String) : Except String (List String) :=
  match params.find? (fun p => ! known_parameters.contains p) with
  | some p => .error (p ++ " does not match any of the known parameters")
  | none =>
    if params = known_parameters.take params.length then .ok params
    else .error "The parameters are not input in the correct order."

/-- Likelihood evaluation of NestleStatModel.log_probability_nestle
(nestle.py lines 68-89).  The spectrum evaluation and Poisson log-likelihood
(statistics.py is absent from the source tree) are abstracted into the
function argument; a none result models a NaN log-likelihood, on which the
source raises ValueError with a message holding only the ll value. -/
def log_probability_nestle (log_likelihood : List ℝ → Option ℝ)
    (parameter_vals : List ℝ) : Except String ℝ :=
  match log_likelihood parameter_vals with
  | none => .error "Returned NaN from likelihood. ll = nan"
  | some v => .ok v

/-- Prior description as read from the configuration dictionary in
NestleStatModel.log_prior_transform_nestle: a type tag, a range pair and a
parameter pair (bounds for the flat prior, mean and width for the Gaussian
one). -/
structure Prior where
  prior_type : String
  range : ℝ × ℝ
  param : ℝ × ℝ

/-- Prior transform of NestleStatModel.log_prior_transform_nestle (nestle.py
lines 91-109).  The scipy normal CDF ndtr and its inverse ndtri are external
collaborators passed as arguments.  A flat prior maps the unit value linearly
onto its bounds; a Gaussian prior evaluates the untruncated normal CDF at
both range ends, interpolates the unit value into that CDF sub-range and
inverts the CDF; any other type tag raises TypeError. -/
noncomputable def log_prior_transform_nestle (ndtr ndtri : ℝ → ℝ) (prior : Prior)
    (x : ℝ) : Except String ℝ :=
  if prior.prior_type = "flat" then
    .ok (x * (prior.param.2 - prior.param.1) + prior.param.1)
  else if prior.prior_type = "gauss" then
    .ok (prior.param.1 + prior.param.2 *
      ndtri (x * (ndtr ((prior.range.2 - prior.param.1) / prior.param.2) -
          ndtr ((prior.range.1 - prior.param.1) / prior.param.2)) +
        ndtr ((prior.range.1 - prior.param.1) / prior.param.2)))
  else
    .error ("unknown prior type " ++ prior.prior_type ++
      ", choose either gauss or flat")

end Nestle

/-- C6: set_fit_parameters accepts exactly the prefixes of the canonical
parameter ordering.  The call stores the requested list when it is such a
prefix and raises a configuration error (modelled as an error value, so no
sampler is ever invoked) otherwise. -/
theorem set_fit_parameters_prefix_rule (params : List String) :
    (Nestle.set_fit_parameters params).toOption =
      if params = Nestle.known_parameters.take params.length
      then some params else none := by
  by_cases hpre : params = Nestle.known_parameters.take params.length
  · have hfind : params.find? (fun p => ! Nestle.known_parameters.contains p) = none := by
      rw [List.find?_eq_none]
      intro x hx
      have hmem : x ∈ Nestle.known_parameters := List.take_subset _ _ (hpre ▸ hx)
      simp [hmem]
    rw [if_pos hpre]
    unfold Nestle.set_fit_parameters
    rw [hfind, if_pos hpre]
    rfl
  · rw [if_neg hpre]
    unfold Nestle.set_fit_parameters
    cases hfind : params.find? (fun p => ! Nestle.known_parameters.contains p) with
    | some p => rfl
    | none =>
      show (if params = Nestle.known_parameters.take params.length
          then (Except.ok params : Except String (List String))
          else Except.error "The parameters are not input in the correct order.").toOption = none
      rw [if_neg hpre]
      rfl

/-- C5 counterexample: the ValueError raised on a NaN log-likelihood does not
surface the offending parameter vector.  Two different offending candidate
vectors produce the identical constant error value, whose message holds only
the ll value. -/
theorem log_probability_nestle_error_hides_vector :
    Nestle.log_probability_nestle (fun _ => none) [(3:ℝ)] =
      .error "Returned NaN from likelihood. ll = nan" ∧
    Nestle.log_probability_nestle (fun _ => none) [(7:ℝ), 8] =
      .error "Returned NaN from likelihood. ll = nan" :=
  ⟨rfl, rfl⟩

/-- C5 amended: a NaN log-likelihood at any candidate point raises a fatal
ValueError (modelled as an error value, so the point is never silently
discarded and sampling does not continue), but the error carries only the
fixed NaN message, not the offending parameter vector. -/
theorem log_probability_nestle_nan_raises (log_likelihood : List ℝ → Option ℝ)
    (parameter_vals : List ℝ) (h : log_likelihood parameter_vals = none) :
    Nestle.log_probability_nestle log_likelihood parameter_vals =
      .error "Returned NaN from likelihood. ll = nan" := by
  unfold Nestle.log_probability_nestle
  rw [h]

/-- Witness for log_probability_nestle_nan_raises at a concrete candidate
point with an always-NaN likelihood. -/
theorem log_probability_nestle_nan_raises_witness :
    (fun (_ : List ℝ) => (none : Option ℝ)) [(1:ℝ), 2] = none ∧
    Nestle.log_probability_nestle (fun _ => none) [(1:ℝ), 2] =
      .error "Returned NaN from likelihood. ll = nan" :=
  ⟨rfl, log_probability_nestle_nan_raises _ _ rfl⟩

/-- C7: for a Gaussian prior with ordered range and positive width, and any
unit-cube input, the prior transform returns the truncated-normal quantile
(CDF evaluated at both range ends, unit value interpolated into that CDF
sub-range, CDF inverted) and the result lies within the range; an unknown
prior type yields a configuration error.  The scipy CDF pair is abstracted
by any monotone inverse pair. -/
theorem log_prior_transform_gauss_in_range (ndtr ndtri : ℝ → ℝ)
    (a b m s x : ℝ) (hmono : Monotone ndtri)
    (hinv : ∀ z, ndtri (ndtr z) = z) (hab : a < b) (hs : 0 < s)
    (hx0 : 0 ≤ x) (hx1 : x ≤ 1) :
    (Nestle.log_prior_transform_nestle ndtr ndtri ⟨"gauss", (a, b), (m, s)⟩ x =
      .ok (m + s * ndtri (x * (ndtr ((b - m) / s) - ndtr ((a - m) / s)) +
        ndtr ((a - m) / s))) ∧
      a ≤ m + s * ndtri (x * (ndtr ((b - m) / s) - ndtr ((a - m) / s)) +
        ndtr ((a - m) / s)) ∧
      m + s * ndtri (x * (ndtr ((b - m) / s) - ndtr ((a - m) / s)) +
        ndtr ((a - m) / s)) ≤ b) ∧
    (∀ t r p, t ≠ "flat" → t ≠ "gauss" →
      (Nestle.log_prior_transform_nestle ndtr ndtri ⟨t, r, p⟩ x).toOption = none) := by
  constructor
  · have ha' : ndtri (ndtr ((a - m) / s)) = (a - m) / s := hinv _
    have hb' : ndtri (ndtr ((b - m) / s)) = (b - m) / s := hinv _
    have hPle : ndtr ((a - m) / s) ≤ ndtr ((b - m) / s) := by
      by_contra hcon
      push_neg at hcon
      have hmle := hmono hcon.le
      rw [ha', hb'] at hmle
      rw [div_le_div_iff hs hs] at hmle
      nlinarith
    set aP := ndtr ((a - m) / s) with haP
    set bP := ndtr ((b - m) / s) with hbP
    have hxP1 : aP ≤ x * (bP - aP) + aP := by nlinarith
    have hxP2 : x * (bP - aP) + aP ≤ bP := by nlinarith
    have h1 : (a - m) / s ≤ ndtri (x * (bP - aP) + aP) := by
      rw [← ha']
      exact hmono hxP1
    have h2 : ndtri (x * (bP - aP) + aP) ≤ (b - m) / s := by
      rw [← hb']
      exact hmono hxP2
    rw [div_le_iff hs] at h1
    rw [le_div_iff hs] at h2
    refine ⟨?_, by nlinarith, by nlinarith⟩
    simp [Nestle.log_prior_transform_nestle]
  · intro t r p ht1 ht2
    simp only [Nestle.log_prior_transform_nestle]
    rw [if_neg ht1, if_neg ht2]
    rfl

/-- Witness for log_prior_transform_gauss_in_range with the identity pair as
CDF and inverse, range 0 to 1, mean 0, width 1 and unit value one half. -/
theorem log_prior_transform_gauss_in_range_witness :
    Monotone (fun z : ℝ => z) ∧ (∀ z : ℝ, (fun z : ℝ => z) ((fun z : ℝ => z) z) = z) ∧
    (0:ℝ) < 1 ∧ (0:ℝ) < 1 ∧ (0:ℝ) ≤ 1/2 ∧ (1/2:ℝ) ≤ 1 ∧
    (Nestle.log_prior_transform_nestle (fun z : ℝ => z) (fun z : ℝ => z)
        ⟨"gauss", (0, 1), (0, 1)⟩ (1/2) =
      .ok (0 + 1 * ((1/2) * (((1 - 0) / 1) - ((0 - 0) / 1)) + ((0 - 0) / 1))) ∧
      (0:ℝ) ≤ 0 + 1 * ((1/2) * (((1 - 0) / 1) - ((0 - 0) / 1)) + ((0 - 0) / 1)) ∧
      (0:ℝ) + 1 * ((1/2) * (((1 - 0) / 1) - ((0 - 0) / 1)) + ((0 - 0) / 1)) ≤ 1) ∧
    (∀ t r p, t ≠ "flat" → t ≠ "gauss" →
      (Nestle.log_prior_transform_nestle (fun z : ℝ => z) (fun z : ℝ => z)
        ⟨t, r, p⟩ (1/2)).toOption = none) :=
  ⟨monotone_id, fun _ => rfl, by norm_num, by norm_num, by norm_num, by norm_num,
   log_prior_transform_gauss_in_range _ _ _ _ _ _ _ monotone_id (fun _ => rfl)
     (by norm_num) (by norm_num) (by norm_num) (by norm_num)⟩

/-- Modelled from the spec: get_bins of the absent halo.py module produces
the edge pairs of n equal-width bins covering the energy range. -/
noncomputable def get_bins (e_min e_max : ℝ) (n : ℕ) : List (ℝ × ℝ) :=
  (List.range n).map fun i =>
    (e_min + (e_max - e_min) * i / n, e_min + (e_max - e_min) * (i + 1) / n)

/-- Modelled from the spec: the bin centers of the absent halo.py module are
the midpoints of the edge pairs. -/
noncomputable def get_bin_centers (e_min e_max : ℝ) (n : ℕ) : List ℝ :=
  (get_bins e_min e_max n).map fun p => (p.1 + p.2) / 2

/-- Consecutive differences, as computed by numpy diff. -/
def np_diff (xs : List ℝ) : List ℝ :=
  List.zipWith (fun a b => b - a) xs xs.tail

/-- Arithmetic mean, as computed by numpy mean and numpy average. -/
noncomputable def np_mean (xs : List ℝ) : ℝ :=
  xs.sum / xs.length

namespace Legacy

/-- Legacy DirectDmTargets DetectorSpectrum.above_threshold (detector.py
lines 391-394): a hard cutoff zeroing every rate whose bin-center energy lies
below the threshold. -/
noncomputable def above_threshold (rates energies : List ℝ) (e_thr : ℝ) : List ℝ :=
  List.zipWith (fun r e => if e < e_thr then 0 else r) rates energies

/-- Legacy DirectDmTargets DetectorSpectrum.chuck_integration (detector.py
lines 373-389): for every output bin, select the fine energies strictly
inside the bin, take the average fine spacing as local bin width and sum the
masked rates times that width. -/
noncomputable def chuck_integration (rates energies : List ℝ)
    (bins : List (ℝ × ℝ)) : List ℝ :=
  bins.map fun bin_i =>
    let masked := (List.zipWith Prod.mk rates energies).filter
      fun p => decide (bin_i.1 < p.2) && decide (p.2 < bin_i.2)
    let bin_width := np_mean (np_diff (masked.map Prod.snd))
    (masked.map fun p => p.1 * bin_width).sum

/-- Configuration of a legacy DirectDmTargets DetectorSpectrum instance: the
binning state of the GenSpectrum base class (halo.py is absent; the binning
is modelled from the spec as n equal-width bins over the energy range, holding
the requested number of output bins before the tenfold internal refinement),
the external theoretical spectrum evaluated at given bin centers, and the
experiment configuration entries used by compute_detected_spectrum. -/
structure Spectrum where
  E_min : ℝ
  E_max : ℝ
  n_bins : ℕ
  spectrum_simple : List ℝ → List ℝ
  add_background : Bool
  bg_func : ℝ → ℝ → ℕ → List ℝ
  res : ℝ → ℝ
  experiment_exp : ℝ
  experiment_exp_eff : ℝ
  E_thr : ℝ

/-- Legacy DirectDmTargets DetectorSpectrum.compute_detected_spectrum
(detector.py lines 396-430).  The number of bins is refined tenfold
(rebin_factor set in the constructor), the theoretical rates are obtained at
the fine centers, background is added rescaled by total over effective
exposure, the hard threshold cut is applied at the fine centers, the rates
are then smeared with the detector resolution, re-binned onto the requested
output binning by chunk integration and scaled by the effective exposure. -/
noncomputable def compute_detected_spectrum (s : Spectrum) : List ℝ :=
  let n_fine := s.n_bins * 10
  let energies := get_bin_centers s.E_min s.E_max n_fine
  let rates0 := s.spectrum_simple energies
  let rates1 :=
    if s.add_background then
      List.zipWith (· + ·) rates0
        ((s.bg_func s.E_min s.E_max n_fine).map
          (· * (s.experiment_exp / s.experiment_exp_eff)))
    else rates0
  let rates2 := above_threshold rates1 energies s.E_thr
  let result_bins := get_bins s.E_min s.E_max s.n_bins
  let sigma := energies.map s.res
  let bin_width := np_mean (np_diff energies)
  let events := smear_signal rates2 energies sigma bin_width
  let events2 := chuck_integration events energies result_bins
  events2.map (· * s.experiment_exp_eff)

/-- Stage order asserted by the claim, for comparison with the legacy code:
identical stages, but with the threshold cut applied to the already-smeared
rates instead of to the rates before smearing. -/
noncomputable def compute_detected_spectrum_claimed_order (s : Spectrum) : List ℝ :=
  let n_fine := s.n_bins * 10
  let energies := get_bin_centers s.E_min s.E_max n_fine
  let rates0 := s.spectrum_simple energies
  let rates1 :=
    if s.add_background then
      List.zipWith (· + ·) rates0
        ((s.bg_func s.E_min s.E_max n_fine).map
          (· * (s.experiment_exp / s.experiment_exp_eff)))
    else rates0
  let result_bins := get_bins s.E_min s.E_max s.n_bins
  let sigma := energies.map s.res
  let bin_width := np_mean (np_diff energies)
  let events := smear_signal rates1 energies sigma bin_width
  let events1 := above_threshold events energies s.E_thr
  let events2 := chuck_integration events1 energies result_bins
  events2.map (· * s.experiment_exp_eff)

/-- Legacy DirectDmTargets DetectorSpectrum.get_events (detector.py lines
432-436). -/
noncomputable def get_events (s : Spectrum) : List ℝ :=
  compute_detected_spectrum s

/-- Legacy DirectDmTargets DetectorSpectrum.get_poisson_events (detector.py
lines 438-442): one Poisson draw per bin, with the raw get_events output
passed directly as the array of Poisson means; the external numpy random
generator is abstracted into the draw argument producing natural counts. -/
noncomputable def get_poisson_events (draw : List ℝ → List ℕ) (s : Spectrum) : List ℝ :=
  (draw (get_events s)).map (fun n => (n : ℝ))

/-- Modelled from the spec: set_negative_to_zero of the absent halo.py module
clamps every negative count of the binned result to zero. -/
noncomputable def set_negative_to_zero (xs : List ℝ) : List ℝ :=
  xs.map fun x => if x < 0 then 0 else x

/-- Counts column of legacy DirectDmTargets DetectorSpectrum.get_data
(detector.py lines 444-461): Poisson-sampled or expected events, passed
through set_negative_to_zero before being returned. -/
noncomputable def get_data (draw : List ℝ → List ℕ) (s : Spectrum)
    (poisson : Bool) : List ℝ :=
  set_negative_to_zero (if poisson then get_poisson_events draw s else get_events s)

end Legacy

namespace DDDM

/-- Detector configuration consumed by dddm DetectorSpectrum._calculate_counts:
exposure, derived effective exposure, threshold, and the per-energy background
and resolution functions of the experiment class, together with the external
theoretical spectrum (spectrum_simple of the absent spectrum.py module,
modelled from the spec as a per-center rate for a given WIMP mass and
cross-section). -/
structure Detector where
  exposure_tonne_year : ℝ
  effective_exposure : ℝ
  energy_threshold_kev : ℝ
  background_function : ℝ → ℝ
  resolution : ℝ → ℝ
  spectrum_simple : ℝ → ℝ → ℝ → ℝ

/-- dddm DetectorSpectrum._calculate_counts (detector_spectrum.py lines
24-58): theoretical rates at the bin centers, plus background rescaled by
total over effective exposure, smeared with the detector resolution, cut at
the energy threshold, and finally multiplied by bin width and effective
exposure.  The poisson flag is accepted and unused, as in the source body. -/
noncomputable def _calculate_counts (d : Detector) (wimp_mass cross_section : ℝ)
    (poisson : Bool) (bin_centers bin_width : List ℝ)
    (bin_edges : List (ℝ × ℝ)) : Except String (List ℝ) :=
  let rates0 := bin_centers.map fun c => d.spectrum_simple c wimp_mass cross_section
  let rates1 := List.zipWith (· + ·) rates0
    (bin_centers.map fun c =>
      d.background_function c * (d.exposure_tonne_year / d.effective_exposure))
  let sigma := bin_centers.map d.resolution
  let rates2 := (smear_signal rates1 bin_centers sigma bin_width).2
  (above_threshold rates2 bin_edges d.energy_threshold_kev).map fun rs =>
    List.zipWith (fun r w => r * w * d.effective_exposure) rs bin_width

end DDDM

/-- C1 amended: the dddm _calculate_counts applies the stages in the claimed
order (background injection, then Gaussian smearing, then the threshold cut
on the already-smeared rates, then integration over the bin widths fused with
the effective-exposure scaling), while the legacy compute_detected_spectrum
applies its hard threshold cut to the rates before smearing and only then
smears, re-bins and scales by the effective exposure. -/
theorem detected_spectrum_stage_order :
    (∀ (d : DDDM.Detector) (wimp_mass cross_section : ℝ) (poisson : Bool)
      (bin_centers bin_width : List ℝ) (bin_edges : List (ℝ × ℝ)),
      DDDM._calculate_counts d wimp_mass cross_section poisson
          bin_centers bin_width bin_edges =
        (DDDM.above_threshold
            ((DDDM.smear_signal
                (List.zipWith (· + ·)
                  (bin_centers.map fun c => d.spectrum_simple c wimp_mass cross_section)
                  (bin_centers.map fun c =>
                    d.background_function c *
                      (d.exposure_tonne_year / d.effective_exposure)))
                bin_centers (bin_centers.map d.resolution) bin_width).2)
            bin_edges d.energy_threshold_kev).map
          fun rs => List.zipWith (fun r w => r * w * d.effective_exposure) rs bin_width) ∧
    (∀ s : Legacy.Spectrum,
      Legacy.compute_detected_spectrum s =
        (Legacy.chuck_integration
            (Legacy.smear_signal
              (Legacy.above_threshold
                (if s.add_background then
                  List.zipWith (· + ·)
                    (s.spectrum_simple (get_bin_centers s.E_min s.E_max (s.n_bins * 10)))
                    ((s.bg_func s.E_min s.E_max (s.n_bins * 10)).map
                      (· * (s.experiment_exp / s.experiment_exp_eff)))
                else s.spectrum_simple (get_bin_centers s.E_min s.E_max (s.n_bins * 10)))
                (get_bin_centers s.E_min s.E_max (s.n_bins * 10)) s.E_thr)
              (get_bin_centers s.E_min s.E_max (s.n_bins * 10))
              ((get_bin_centers s.E_min s.E_max (s.n_bins * 10)).map s.res)
              (np_mean (np_diff (get_bin_centers s.E_min s.E_max (s.n_bins * 10)))))
            (get_bin_centers s.E_min s.E_max (s.n_bins * 10))
            (get_bins s.E_min s.E_max s.n_bins)).map
          (· * s.experiment_exp_eff)) :=
  ⟨fun _ _ _ _ _ _ _ => rfl, fun _ => rfl⟩

/-- C8 amended: the counts column returned by legacy get_data is clamped via
set_negative_to_zero and therefore holds no negative entry, for both the
Poisson and the expectation branch; get_poisson_events however passes the raw
unclamped get_events spectrum directly as the array of Poisson means. -/
theorem get_data_clamps_after_sampling (draw : List ℝ → List ℕ)
    (s : Legacy.Spectrum) (poisson : Bool) :
    (∀ x ∈ Legacy.get_data draw s poisson, 0 ≤ x) ∧
    Legacy.get_poisson_events draw s =
      (draw (Legacy.get_events s)).map (fun n => (n : ℝ)) := by
  constructor
  · intro x hx
    unfold Legacy.get_data Legacy.set_negative_to_zero at hx
    obtain ⟨y, -, hy⟩ := List.mem_map.mp hx
    rw [← hy]
    by_cases hneg : y < 0
    · rw [if_pos hneg]
    · rw [if_neg hneg]
      exact le_of_not_lt hneg
  · rfl

/-- Helper: a getD lookup with default 0 into a list of non-positive entries
is non-positive. -/
theorem list_getD_nonpos (l : List ℝ) (j : ℕ) (h : ∀ x ∈ l, x ≤ 0) :
    l.getD j 0 ≤ 0 := by
  rcases lt_or_ge j l.length with hj | hj
  · rw [List.getD_eq_getElem l 0 hj]
    exact h _ (List.getElem_mem hj)
  · rw [List.getD_eq_default l 0 hj]

/-- Helper: a sum over an inhabited range of non-positive terms whose first
term is negative is negative. -/
theorem sum_range_neg_of_nonpos (f : ℕ → ℝ) (n : ℕ) (hn : 0 < n)
    (h : ∀ j, f j ≤ 0) (h0 : f 0 < 0) :
    (∑ j ∈ Finset.range n, f j) < 0 := by
  induction n with
  | zero => exact absurd hn (lt_irrefl 0)
  | succ n ih =>
    rw [Finset.sum_range_succ]
    rcases Nat.eq_zero_or_pos n with h' | h'
    · subst h'
      simpa using h0
    · exact add_neg_of_neg_of_nonpos (ih h') (h n)

/-- Helper: a sum over an inhabited range of non-negative terms whose first
term is positive is positive. -/
theorem sum_range_pos_of_nonneg (f : ℕ → ℝ) (n : ℕ) (hn : 0 < n)
    (h : ∀ j, 0 ≤ f j) (h0 : 0 < f 0) :
    0 < ∑ j ∈ Finset.range n, f j := by
  induction n with
  | zero => exact absurd hn (lt_irrefl 0)
  | succ n ih =>
    rw [Finset.sum_range_succ]
    rcases Nat.eq_zero_or_pos n with h' | h'
    · subst h'
      simpa using h0
    · exact add_pos_of_pos_of_nonneg (ih h') (h n)

/-- Helper evaluation: the ten fine bin centers of the range 0 to 10. -/
theorem bin_centers_ten_eval :
    get_bin_centers 0 10 10 =
      [1/2, 3/2, 5/2, 7/2, 9/2, 11/2, 13/2, 15/2, 17/2, 19/2] := by
  norm_num [get_bin_centers, get_bins, List.range_succ]

/-- Helper evaluation: the mean fine-bin spacing of the range 0 to 10 is 1. -/
theorem np_mean_diff_ten_eval :
    np_mean (np_diff (get_bin_centers 0 10 10)) = 1 := by
  rw [bin_centers_ten_eval]
  norm_num [np_mean, np_diff]

/-- Helper evaluation: the single output bin of the range 0 to 10. -/
theorem result_bins_one_eval : get_bins 0 10 1 = [(0, 10)] := by
  norm_num [get_bins, List.range_succ]

/-- Helper evaluation: a constant resolution of 2 at the ten fine centers. -/
theorem sigma_two_eval :
    (get_bin_centers 0 10 10).map (fun _ : ℝ => (2:ℝ)) =
      [2, 2, 2, 2, 2, 2, 2, 2, 2, 2] := by
  rw [bin_centers_ten_eval]
  norm_num

/-- Legacy detector configuration used to exhibit a negative computed
spectrum: one output bin over 0 to 10 keV, a theoretical rate of -1 in the
first fine bin, no background, constant resolution 2 and zero threshold. -/
noncomputable def c8_config : Legacy.Spectrum where
  E_min := 0
  E_max := 10
  n_bins := 1
  spectrum_simple := fun cs => cs.map fun c => if c < 1 then (-1 : ℝ) else 0
  add_background := false
  bg_func := fun _ _ _ => []
  res := fun _ => 2
  experiment_exp := 1
  experiment_exp_eff := 1
  E_thr := 0

/-- Helper evaluation: the theoretical spectrum of c8_config at the fine
centers. -/
theorem c8_spectrum_eval :
    (get_bin_centers 0 10 10).map (fun c => if c < 1 then (-1 : ℝ) else 0) =
      [-1, 0, 0, 0, 0, 0, 0, 0, 0, 0] := by
  rw [bin_centers_ten_eval]
  norm_num

/-- Helper evaluation: the zero threshold of c8_config keeps every fine bin. -/
theorem c8_threshold_eval :
    Legacy.above_threshold [-1, 0, 0, 0, 0, 0, 0, 0, 0, 0]
        (get_bin_centers 0 10 10) 0 =
      [-1, 0, 0, 0, 0, 0, 0, 0, 0, 0] := by
  rw [bin_centers_ten_eval]
  norm_num [Legacy.above_threshold]

/-- C8 counterexample: the spectrum computed by the legacy pipeline for
c8_config has a negative first entry; get_poisson_events passes exactly this
get_events array, unclamped, as the Poisson means. -/
theorem get_events_negative_poisson_mean :
    (Legacy.get_events c8_config).getD 0 0 < 0 := by
  have hstage : Legacy.get_events c8_config =
      (Legacy.chuck_integration
        (Legacy.smear_signal [-1, 0, 0, 0, 0, 0, 0, 0, 0, 0]
          (get_bin_centers 0 10 10) [2, 2, 2, 2, 2, 2, 2, 2, 2, 2] 1)
        (get_bin_centers 0 10 10) (get_bins 0 10 1)).map (· * 1) := by
    simp only [Legacy.get_events, Legacy.compute_detected_spectrum, c8_config,
      Bool.false_eq_true, if_false, one_mul]
    rw [c8_spectrum_eval, c8_threshold_eval, sigma_two_eval, np_mean_diff_ten_eval]
  rw [hstage, bin_centers_ten_eval, result_bins_one_eval]
  have hterm : ∀ i j : ℕ, Legacy.smear_term [-1, 0, 0, 0, 0, 0, 0, 0, 0, 0]
      [1/2, 3/2, 5/2, 7/2, 9/2, 11/2, 13/2, 15/2, 17/2, 19/2]
      [2, 2, 2, 2, 2, 2, 2, 2, 2, 2] 1 i j ≤ 0 := by
    intro i j
    unfold Legacy.smear_term
    have hr : ([(-1:ℝ), 0, 0, 0, 0, 0, 0, 0, 0, 0] : List ℝ).getD j 0 ≤ 0 :=
      list_getD_nonpos _ _ (by norm_num)
    have hsg : (0:ℝ) ≤ ([2, 2, 2, 2, 2, 2, 2, 2, 2, 2] : List ℝ).getD j 0 :=
      list_getD_nonneg _ _ (by norm_num)
    have hinv : (0:ℝ) ≤ 1 / (Real.sqrt (2 * Real.pi) *
        ([2, 2, 2, 2, 2, 2, 2, 2, 2, 2] : List ℝ).getD j 0) :=
      div_nonneg zero_le_one (mul_nonneg (Real.sqrt_nonneg _) hsg)
    have hexp := (Real.exp_pos (-((([1/2, 3/2, 5/2, 7/2, 9/2, 11/2, 13/2,
        15/2, 17/2, 19/2] : List ℝ).getD i 0 -
        ([1/2, 3/2, 5/2, 7/2, 9/2, 11/2, 13/2, 15/2, 17/2, 19/2] : List ℝ).getD j 0) ^ 2 /
        (2 * ([2, 2, 2, 2, 2, 2, 2, 2, 2, 2] : List ℝ).getD j 0 ^ 2)))).le
    rw [one_mul, mul_assoc]
    exact mul_nonpos_iff.mpr (Or.inr ⟨hr, mul_nonneg hinv hexp⟩)
  have hstrict : Legacy.smear_term [-1, 0, 0, 0, 0, 0, 0, 0, 0, 0]
      [1/2, 3/2, 5/2, 7/2, 9/2, 11/2, 13/2, 15/2, 17/2, 19/2]
      [2, 2, 2, 2, 2, 2, 2, 2, 2, 2] 1 0 0 < 0 := by
    unfold Legacy.smear_term
    norm_num
    positivity
  have hsum : ∀ i : ℕ, (∑ j ∈ Finset.range 10,
      Legacy.smear_term [-1, 0, 0, 0, 0, 0, 0, 0, 0, 0]
        [1/2, 3/2, 5/2, 7/2, 9/2, 11/2, 13/2, 15/2, 17/2, 19/2]
        [2, 2, 2, 2, 2, 2, 2, 2, 2, 2] 1 i j) ≤ 0 :=
    fun i => Finset.sum_nonpos fun j _ => hterm i j
  have hsum0 : (∑ j ∈ Finset.range 10,
      Legacy.smear_term [-1, 0, 0, 0, 0, 0, 0, 0, 0, 0]
        [1/2, 3/2, 5/2, 7/2, 9/2, 11/2, 13/2, 15/2, 17/2, 19/2]
        [2, 2, 2, 2, 2, 2, 2, 2, 2, 2] 1 0 j) < 0 :=
    sum_range_neg_of_nonpos _ 10 (by norm_num) (hterm 0) hstrict
  norm_num [Legacy.smear_signal, Legacy.chuck_integration, List.range_succ,
    np_diff, np_mean, List.filter]
  linarith [hsum 1, hsum 2, hsum 3, hsum 4, hsum 5, hsum 6, hsum 7, hsum 8,
    hsum 9, hsum0]

/-- Legacy detector configuration used to exhibit the stage-order divergence:
one output bin over 0 to 10 keV, a theoretical rate of 1 in the first fine
bin only, no background, constant resolution 2 and a threshold of 1 keV
sitting above the first fine bin center. -/
noncomputable def c1_config : Legacy.Spectrum where
  E_min := 0
  E_max := 10
  n_bins := 1
  spectrum_simple := fun cs => cs.map fun c => if c < 1 then (1 : ℝ) else 0
  add_background := false
  bg_func := fun _ _ _ => []
  res := fun _ => 2
  experiment_exp := 1
  experiment_exp_eff := 1
  E_thr := 1

/-- Helper evaluation: the theoretical spectrum of c1_config at the fine
centers. -/
theorem c1_spectrum_eval :
    (get_bin_centers 0 10 10).map (fun c => if c < 1 then (1 : ℝ) else 0) =
      [1, 0, 0, 0, 0, 0, 0, 0, 0, 0] := by
  rw [bin_centers_ten_eval]
  norm_num

/-- Helper evaluation: the hard threshold cut of c1_config zeroes the only
populated fine bin before smearing. -/
theorem c1_threshold_eval :
    Legacy.above_threshold [1, 0, 0, 0, 0, 0, 0, 0, 0, 0]
        (get_bin_centers 0 10 10) 1 =
      [0, 0, 0, 0, 0, 0, 0, 0, 0, 0] := by
  rw [bin_centers_ten_eval]
  norm_num [Legacy.above_threshold]

set_option maxHeartbeats 2000000 in
/-- C1 counterexample: at c1_config the legacy pipeline and the claimed stage
order disagree.  The legacy code thresholds the rates before smearing, which
zeroes the only populated fine bin and yields an all-zero output, while the
claimed order (threshold applied to the already-smeared rates) leaves
smeared-out signal in the bins above threshold and yields a positive output. -/
theorem compute_detected_spectrum_threshold_before_smear :
    Legacy.compute_detected_spectrum c1_config ≠
      Legacy.compute_detected_spectrum_claimed_order c1_config := by
  have hzero_term : ∀ i j : ℕ, Legacy.smear_term [0, 0, 0, 0, 0, 0, 0, 0, 0, 0]
      (get_bin_centers 0 10 10) [2, 2, 2, 2, 2, 2, 2, 2, 2, 2] 1 i j = 0 := by
    intro i j
    unfold Legacy.smear_term
    have hz : ([0, 0, 0, 0, 0, 0, 0, 0, 0, 0] : List ℝ).getD j 0 = 0 := by
      rcases lt_or_ge j ([0, 0, 0, 0, 0, 0, 0, 0, 0, 0] : List ℝ).length with hj | hj
      · rw [List.getD_eq_getElem _ 0 hj]
        have := List.getElem_mem hj
        simp only [List.mem_cons, List.not_mem_nil, or_false] at this
        rcases this with h | h | h | h | h | h | h | h | h | h <;> rw [h]
      · rw [List.getD_eq_default _ 0 hj]
    rw [hz]
    ring
  have hsmear0 : Legacy.smear_signal [0, 0, 0, 0, 0, 0, 0, 0, 0, 0]
      (get_bin_centers 0 10 10) [2, 2, 2, 2, 2, 2, 2, 2, 2, 2] 1 =
      [0, 0, 0, 0, 0, 0, 0, 0, 0, 0] := by
    have hs : ∀ i : ℕ, (∑ j ∈ Finset.range 10,
        Legacy.smear_term [0, 0, 0, 0, 0, 0, 0, 0, 0, 0]
          (get_bin_centers 0 10 10) [2, 2, 2, 2, 2, 2, 2, 2, 2, 2] 1 i j) = 0 :=
      fun i => Finset.sum_eq_zero fun j _ => hzero_term i j
    rw [Legacy.smear_signal, bin_centers_ten_eval]
    norm_num [List.range_succ]
    rw [← bin_centers_ten_eval]
    exact ⟨hs 0, hs 1, hs 2, hs 3, hs 4, hs 5, hs 6, hs 7, hs 8, hs 9⟩
  have hactual : Legacy.compute_detected_spectrum c1_config = [0] := by
    have hstage : Legacy.compute_detected_spectrum c1_config =
        (Legacy.chuck_integration
          (Legacy.smear_signal [0, 0, 0, 0, 0, 0, 0, 0, 0, 0]
            (get_bin_centers 0 10 10) [2, 2, 2, 2, 2, 2, 2, 2, 2, 2] 1)
          (get_bin_centers 0 10 10) (get_bins 0 10 1)).map (· * 1) := by
      simp only [Legacy.compute_detected_spectrum, c1_config,
        Bool.false_eq_true, if_false, one_mul]
      rw [c1_spectrum_eval, c1_threshold_eval, sigma_two_eval, np_mean_diff_ten_eval]
    rw [hstage, hsmear0, bin_centers_ten_eval, result_bins_one_eval]
    norm_num [Legacy.chuck_integration, np_diff, np_mean, List.filter]
  have hclaimed : Legacy.compute_detected_spectrum_claimed_order c1_config =
      (Legacy.chuck_integration
        (Legacy.above_threshold
          (Legacy.smear_signal [1, 0, 0, 0, 0, 0, 0, 0, 0, 0]
            (get_bin_centers 0 10 10) [2, 2, 2, 2, 2, 2, 2, 2, 2, 2] 1)
          (get_bin_centers 0 10 10) 1)
        (get_bin_centers 0 10 10) (get_bins 0 10 1)).map (· * 1) := by
    simp only [Legacy.compute_detected_spectrum_claimed_order, c1_config,
      Bool.false_eq_true, if_false, one_mul]
    rw [c1_spectrum_eval, sigma_two_eval, np_mean_diff_ten_eval]
  have hterm : ∀ i j : ℕ, 0 ≤ Legacy.smear_term [1, 0, 0, 0, 0, 0, 0, 0, 0, 0]
      [1/2, 3/2, 5/2, 7/2, 9/2, 11/2, 13/2, 15/2, 17/2, 19/2]
      [2, 2, 2, 2, 2, 2, 2, 2, 2, 2] 1 i j := by
    intro i j
    unfold Legacy.smear_term
    have hr : (0:ℝ) ≤ ([1, 0, 0, 0, 0, 0, 0, 0, 0, 0] : List ℝ).getD j 0 :=
      list_getD_nonneg _ _ (by norm_num)
    have hsg : (0:ℝ) ≤ ([2, 2, 2, 2, 2, 2, 2, 2, 2, 2] : List ℝ).getD j 0 :=
      list_getD_nonneg _ _ (by norm_num)
    have hinv : (0:ℝ) ≤ 1 / (Real.sqrt (2 * Real.pi) *
        ([2, 2, 2, 2, 2, 2, 2, 2, 2, 2] : List ℝ).getD j 0) :=
      div_nonneg zero_le_one (mul_nonneg (Real.sqrt_nonneg _) hsg)
    have hexp := (Real.exp_pos (-((([1/2, 3/2, 5/2, 7/2, 9/2, 11/2, 13/2,
        15/2, 17/2, 19/2] : List ℝ).getD i 0 -
        ([1/2, 3/2, 5/2, 7/2, 9/2, 11/2, 13/2, 15/2, 17/2, 19/2] : List ℝ).getD j 0) ^ 2 /
        (2 * ([2, 2, 2, 2, 2, 2, 2, 2, 2, 2] : List ℝ).getD j 0 ^ 2)))).le
    rw [one_mul, mul_assoc]
    exact mul_nonneg hr (mul_nonneg hinv hexp)
  have hstrict : ∀ i : ℕ, 0 < Legacy.smear_term [1, 0, 0, 0, 0, 0, 0, 0, 0, 0]
      [1/2, 3/2, 5/2, 7/2, 9/2, 11/2, 13/2, 15/2, 17/2, 19/2]
      [2, 2, 2, 2, 2, 2, 2, 2, 2, 2] 1 i 0 := by
    intro i
    unfold Legacy.smear_term
    norm_num
    positivity
  have hsum : ∀ i : ℕ, 0 ≤ (∑ j ∈ Finset.range 10,
      Legacy.smear_term [1, 0, 0, 0, 0, 0, 0, 0, 0, 0]
        [1/2, 3/2, 5/2, 7/2, 9/2, 11/2, 13/2, 15/2, 17/2, 19/2]
        [2, 2, 2, 2, 2, 2, 2, 2, 2, 2] 1 i j) :=
    fun i => Finset.sum_nonneg fun j _ => hterm i j
  have hsum1 : 0 < (∑ j ∈ Finset.range 10,
      Legacy.smear_term [1, 0, 0, 0, 0, 0, 0, 0, 0, 0]
        [1/2, 3/2, 5/2, 7/2, 9/2, 11/2, 13/2, 15/2, 17/2, 19/2]
        [2, 2, 2, 2, 2, 2, 2, 2, 2, 2] 1 1 j) :=
    sum_range_pos_of_nonneg _ 10 (by norm_num) (hterm 1) (hstrict 1)
  rw [hactual, hclaimed, bin_centers_ten_eval, result_bins_one_eval]
  norm_num [Legacy.smear_signal, Legacy.chuck_integration,
    Legacy.above_threshold, List.range_succ, np_diff, np_mean, List.filter]
  intro hc
  linarith [hsum 2, hsum 3, hsum 4, hsum 5, hsum 6, hsum 7, hsum 8, hsum 9,
    hsum1, hc]
